import Mathlib

/-!
Verification of the Markov title generator in movies_markov.py.

The embedding models Python dicts as association lists in insertion order,
the global random source as an explicitly passed sequence of rational draws
(random.uniform(0, total) returns a value in the closed interval [0, total]),
a Python KeyError as an Option-valued result, and the two unbounded loops
(the random walk and the dedup generator) with an explicit fuel argument.
-/

namespace MovieMarkov

/-- Symbols of the chain: word tokens plus the reserved sentinels written
_start_ and _end_ in movies_markov.py. -/
abbrev Symbol := String

/-- An edge table: a Python dict from successor symbol to integer weight,
modelled as an association list in insertion order. -/
abbrev EdgeTable := List (Symbol × Nat)

/-- The markov chain dict of movies_markov.py: a dict from symbol to its
edge table, modelled as an association list in insertion order. -/
abbrev Chain := List (Symbol × EdgeTable)

/-- Lookup in a Python dict modelled as an association list. -/
def alistFind {β : Type} : List (String × β) → String → Option β
  | [], _ => none
  | (k, v) :: rest, x => if k = x then some v else alistFind rest x

/-- Python dict assignment d[k] = v: replace the first binding of k when
present, otherwise append the new binding at the end (insertion order). -/
def alistSet {β : Type} : List (String × β) → String → β → List (String × β)
  | [], x, v => [(x, v)]
  | (k, w) :: rest, x, v => if k = x then (x, v) :: rest else (k, w) :: alistSet rest x v

/-- The accumulation loop of weighted_choice (movies_markov.py lines 70-73):
upto is the running sum and r the random draw; return the first choice with
upto + weight >= r, else advance upto past the weight. The none result
models the assert False fall-through on line 74. -/
def wchoiceFrom {α : Type} : List (α × ℚ) → ℚ → ℚ → Option α
  | [], _, _ => none
  | (c, w) :: rest, upto, r => if r ≤ upto + w then some c else wchoiceFrom rest (upto + w) r

/-- weighted_choice of movies_markov.py (lines 65-74), with the random draw r
passed explicitly; the source draws r = random.uniform(0, total), a value in
the closed interval [0, total]. -/
def weighted_choice {α : Type} (choices : List (α × ℚ)) (r : ℚ) : Option α :=
  wchoiceFrom choices 0 r

/-- total = sum(weight for choice, weight in choices) on line 67. -/
def sumWeights {α : Type} (choices : List (α × ℚ)) : ℚ :=
  (choices.map Prod.snd).sum

/-- Outcome of one call of markov_randwalk: a generated title, a KeyError on
the initial lookup mark[start] (line 81), a KeyError on the lookup
mark[newword] inside the loop (line 99), the assert False fall-through of
weighted_choice, or exhaustion of the fuel bounding the unbounded loop. -/
inductive WalkResult where
  | ok (title : String)
  | startNotFound
  | unknownSymbol (w : Symbol)
  | samplerExhausted
  | fuelOut
deriving DecidableEq

/-- previous.items() on line 92: the integer weights of an edge table viewed
as rational weights for weighted_choice. -/
def etPairs (t : EdgeTable) : List (Symbol × ℚ) :=
  t.map (fun p => (p.1, (p.2 : ℚ)))

/-- The while loop of markov_randwalk (lines 89-99): sample a successor from
the current table with the next draw; on _end_ return the words joined by
single spaces, otherwise append the word and move to its table. -/
def walkLoop (mark : Chain) : EdgeTable → List Symbol → (Nat → ℚ) → Nat → Nat → WalkResult
  | _, _, _, _, 0 => .fuelOut
  | prev, title, draws, i, fuel + 1 =>
    match weighted_choice (etPairs prev) (draws i) with
    | none => .samplerExhausted
    | some w =>
      if w = "_end_" then .ok (String.intercalate " " title)
      else
        match alistFind mark w with
        | none => .unknownSymbol w
        | some t => walkLoop mark t (title ++ [w]) draws (i + 1) fuel

/-- markov_randwalk of movies_markov.py (lines 78-102): the i-th loop
iteration consumes the draw draws i, and fuel bounds the number of
iterations of the in-principle unbounded loop. -/
def markov_randwalk (mark : Chain) (start : Symbol) (draws : Nat → ℚ) (fuel : Nat) : WalkResult :=
  match alistFind mark start with
  | none => .startNotFound
  | some t => walkLoop mark t (if start = "_start_" then [] else [start]) draws 0 fuel

/-- The body of the inner word loop of calculate_chain (lines 131-140) for
one word w: previous is always the dict stored in mark at key prev, so the
mutation of the aliased dict is modelled by updating mark at prev. The word
is recorded in the previous table (new entry of weight 1, registering an
unseen word in mark, or an increment), matching the statement order of the
source. -/
def step1 (mark : Chain) (prev w : Symbol) : Chain :=
  let ptab := (alistFind mark prev).getD []
  match alistFind ptab w with
  | none =>
    let m1 := alistSet mark prev (alistSet ptab w 1)
    if (alistFind m1 w).isSome then m1 else alistSet m1 w []
  | some n => alistSet mark prev (alistSet ptab w (n + 1))

/-- The inner word loop of calculate_chain (lines 125-142): break on an empty
word, otherwise record the word and advance previous to mark[word]; that
lookup (line 142) raises a KeyError, modelled as none, when word is not a
key of mark. Returns the updated chain and the key whose table previous
refers to when the loop ends. -/
def procWords : Chain → List String → Symbol → Option (Chain × Symbol)
  | mark, [], prev => some (mark, prev)
  | mark, w :: ws, prev =>
    if w = "" then some (mark, prev)
    else
      match alistFind (step1 mark prev w) w with
      | none => none
      | some _ => procWords (step1 mark prev w) ws w

/-- Lines 144-148 of calculate_chain: add or increment the _end_ edge in the
table previous refers to. -/
def addEnd (mark : Chain) (prev : Symbol) : Chain :=
  let ptab := (alistFind mark prev).getD []
  match alistFind ptab "_end_" with
  | none => alistSet mark prev (alistSet ptab "_end_" 1)
  | some n => alistSet mark prev (alistSet ptab "_end_" (n + 1))

/-- The loop body of calculate_chain for one title already split into words
(lines 119-148): run the word loop from the _start_ table, then add the
_end_ edge to the final table. -/
def procTitleW (mark : Chain) (ws : List String) : Option Chain :=
  match procWords mark ws "_start_" with
  | none => none
  | some (m, prev) => some (addEnd m prev)

/-- The title loop of calculate_chain applied to pre-split word sequences. -/
def calcW : List (List String) → Chain → Option Chain
  | [], mark => some mark
  | ws :: rest, mark =>
    match procTitleW mark ws with
    | none => none
    | some m => calcW rest m

/-- The initial chain of calculate_chain (lines 111-112): one key _start_
with an empty table. -/
def initChain : Chain := [("_start_", [])]

/-- calculate_chain applied to token-sequences directly, as in the
ChainBuilder contract of the spec: the per-title body of the source run on
already-split word lists. -/
def calculate_chain_words (seqs : List (List String)) : Option Chain :=
  calcW seqs initChain

/-- Helper for splitSpace: acc holds the characters of the current token in
reverse. -/
def splitSp : List Char → List Char → List String
  | [], acc => [String.mk acc.reverse]
  | c :: cs, acc => if c = ' ' then String.mk acc.reverse :: splitSp cs [] else splitSp cs (c :: acc)

/-- Python title.split(a single space) on line 119: split at every space
character, keeping empty tokens; the empty string splits to one empty
token. -/
def splitSpace (s : String) : List String :=
  splitSp s.data []

/-- The title loop of calculate_chain (lines 114-148) on the raw input
iterable: a none entry models a None produced by the upstream cleaner for an
unparseable line, and the source executes break on it (line 116), ending the
loop at once. -/
def calcT : List (Option String) → Chain → Option Chain
  | [], mark => some mark
  | none :: _, mark => some mark
  | some t :: rest, mark =>
    match procTitleW mark (splitSpace t) with
    | none => none
    | some m => calcT rest m

/-- calculate_chain of movies_markov.py (lines 104-149) on an iterable of
cleaned titles or None markers. -/
def calculate_chain (titles : List (Option String)) : Option Chain :=
  calcT titles initChain

/-- The titles generator of movies_markov.py (lines 153-161): uniq is the
dedup set, attempt j runs markov_randwalk with draw sequence draws j and
fuel wfuel j, and fuel bounds the number of attempts. Returns the list of
titles yielded in order; a walk outcome other than ok (an exception in the
source) ends the stream. -/
def titlesRun (mark : Chain) (seed : String) (draws : Nat → Nat → ℚ) (wfuel : Nat → Nat) :
    List String → Nat → Nat → List String
  | _, _, 0 => []
  | uniq, j, fuel + 1 =>
    match markov_randwalk mark seed (draws j) (wfuel j) with
    | .ok t =>
      if t = seed ∨ t ∈ uniq then titlesRun mark seed draws wfuel uniq (j + 1) fuel
      else t :: titlesRun mark seed draws wfuel (t :: uniq) (j + 1) fuel
    | _ => []

/-- The table stored at _start_. -/
def startTable (mark : Chain) : EdgeTable :=
  (alistFind mark "_start_").getD []

/-- Sum of the integer weights of an edge table. -/
def wsum (t : EdgeTable) : Nat :=
  (t.map Prod.snd).sum

/-- The invariants of a built chain claimed by the spec: _start_ is a key,
every edge key other than _end_ is a key of the chain, and every weight is
at least 1. -/
def InvB (mark : Chain) : Prop :=
  (alistFind mark "_start_").isSome = true ∧
  ∀ p ∈ mark, ∀ q ∈ p.2, (q.1 ≠ "_end_" → (alistFind mark q.1).isSome = true) ∧ 1 ≤ q.2

/-! ## Association list lemmas -/

theorem alistFind_set {β : Type} (l : List (String × β)) (k : String) (v : β) (x : String) :
    alistFind (alistSet l k v) x = if k = x then some v else alistFind l x := by
  induction l with
  | nil => by_cases h : k = x <;> simp [alistSet, alistFind, h]
  | cons p rest ih =>
    obtain ⟨a, b⟩ := p
    by_cases hak : a = k
    · subst hak
      by_cases hax : a = x <;> simp [alistSet, alistFind, hax]
    · by_cases hax : a = x
      · subst hax
        have hka : ¬ (k = a) := fun h => hak h.symm
        simp [alistSet, alistFind, hak, hka]
      · simp [alistSet, alistFind, hak, hax, ih]

theorem mem_of_alistFind {β : Type} :
    ∀ (l : List (String × β)) (k : String) (v : β), alistFind l k = some v → (k, v) ∈ l
  | [], k, v, h => by simp [alistFind] at h
  | (a, b) :: rest, k, v, h => by
    by_cases hak : a = k
    · subst hak
      simp only [alistFind, if_true, eq_self_iff_true, Option.some.injEq] at h
      subst h
      exact List.mem_cons_self _ _
    · have h2 : alistFind rest k = some v := by simpa [alistFind, hak] using h
      exact List.mem_cons_of_mem _ (mem_of_alistFind rest k v h2)

theorem mem_alistSet_cases {β : Type} :
    ∀ (l : List (String × β)) (k : String) (v : β) (p : String × β),
      p ∈ alistSet l k v → p = (k, v) ∨ p ∈ l
  | [], k, v, p, h => by
    simp only [alistSet, List.mem_singleton] at h
    exact Or.inl h
  | (a, b) :: rest, k, v, p, h => by
    by_cases hak : a = k
    · subst hak
      rcases List.mem_cons.mp (by simpa [alistSet] using h) with h1 | h2
      · exact Or.inl h1
      · exact Or.inr (List.mem_cons_of_mem _ h2)
    · rcases List.mem_cons.mp (by simpa [alistSet, hak] using h) with h1 | h2
      · exact Or.inr (by simp [h1])
      · rcases mem_alistSet_cases rest k v p h2 with h3 | h4
        · exact Or.inl h3
        · exact Or.inr (List.mem_cons_of_mem _ h4)

theorem alistFind_set_isSome {β : Type} (l : List (String × β)) (k x : String) (v : β)
    (h : (alistFind l x).isSome = true) :
    (alistFind (alistSet l k v) x).isSome = true := by
  rw [alistFind_set]
  by_cases hkx : k = x <;> simp [hkx, h]

theorem wsum_set_none : ∀ (t : EdgeTable) (k : Symbol) (v : Nat),
    alistFind t k = none → wsum (alistSet t k v) = wsum t + v
  | [], _, v, _ => by simp [alistSet, wsum]
  | (a, b) :: rest, k, v, h => by
    by_cases hak : a = k
    · rw [hak] at h
      simp [alistFind] at h
    · have h2 : alistFind rest k = none := by simpa [alistFind, hak] using h
      have ih := wsum_set_none rest k v h2
      simp only [alistSet, if_neg hak, wsum, List.map_cons, List.sum_cons] at *
      omega

theorem wsum_set_some : ∀ (t : EdgeTable) (k : Symbol) (n : Nat),
    alistFind t k = some n → wsum (alistSet t k (n + 1)) = wsum t + 1
  | [], k, n, h => by simp [alistFind] at h
  | (a, b) :: rest, k, n, h => by
    by_cases hak : a = k
    · subst hak
      simp only [alistFind, if_true, eq_self_iff_true, Option.some.injEq] at h
      subst h
      simp only [alistSet, if_true, eq_self_iff_true, wsum, List.map_cons, List.sum_cons]
      omega
    · have h2 : alistFind rest k = some n := by simpa [alistFind, hak] using h
      have ih := wsum_set_some rest k n h2
      simp only [alistSet, if_neg hak, wsum, List.map_cons, List.sum_cons] at *
      omega

/-! ## Sampler lemmas -/

theorem wchoiceFrom_isSome {α : Type} :
    ∀ (l : List (α × ℚ)) (upto r : ℚ), l ≠ [] → r ≤ upto + sumWeights l →
      (wchoiceFrom l upto r).isSome = true
  | [], _, _, h, _ => absurd rfl h
  | (c, w) :: rest, upto, r, _, hr => by
    have hsum : sumWeights ((c, w) :: rest) = w + sumWeights rest := by
      simp [sumWeights]
    rw [hsum] at hr
    by_cases hc : r ≤ upto + w
    · simp [wchoiceFrom, hc]
    · rcases rest with _ | ⟨q, rest2⟩
      · exfalso
        apply hc
        have h0 : sumWeights ([] : List (α × ℚ)) = 0 := by simp [sumWeights]
        rw [h0] at hr
        linarith
      · have hrec := wchoiceFrom_isSome (q :: rest2) (upto + w) r (by simp) (by linarith)
        simpa [wchoiceFrom, hc] using hrec

/-- C2: for every non-empty list of (item, weight) pairs with positive
weights and every draw r in the closed interval from 0 to the total weight
(including the boundary r equal to the exact total), the scan of
weighted_choice selects some pair before exhausting the list, so the
assert False fall-through is unreachable and exactly one item is returned. -/
theorem C2_sampler_never_exhausts {α : Type} (choices : List (α × ℚ)) (r : ℚ)
    (hne : choices ≠ []) (hpos : ∀ p ∈ choices, 0 < p.2)
    (h0 : 0 ≤ r) (ht : r ≤ sumWeights choices) :
    (weighted_choice choices r).isSome = true :=
  wchoiceFrom_isSome choices 0 r hne (by simpa using ht)

/-- Witness for C2 at the pairs (a, 1), (b, 3) and the boundary draw r = 4,
which equals the total weight exactly. -/
theorem C2_witness :
    ([(("a" : String), (1 : ℚ)), ("b", 3)] ≠ ([] : List (String × ℚ))) ∧
    (∀ p ∈ [(("a" : String), (1 : ℚ)), ("b", 3)], 0 < p.2) ∧
    (0 : ℚ) ≤ 4 ∧ (4 : ℚ) ≤ sumWeights [(("a" : String), (1 : ℚ)), ("b", 3)] ∧
    (weighted_choice [(("a" : String), (1 : ℚ)), ("b", 3)] 4).isSome = true :=
  ⟨by simp, by norm_num, by norm_num, by norm_num [sumWeights],
   C2_sampler_never_exhausts [("a", 1), ("b", 3)] 4 (by simp) (by norm_num)
     (by norm_num) (by norm_num [sumWeights])⟩

theorem wchoice_single {α : Type} (x : α) (w r : ℚ) (h : r ≤ w) :
    weighted_choice [(x, w)] r = some x := by
  simp [weighted_choice, wchoiceFrom, zero_add, h]

/-- C9: for every single-pair input [(x, w)] and every value of the random
draw in the closed interval from 0 to w, weighted_choice returns x,
regardless of the weight value w. -/
theorem C9_single_pair_returns_item {α : Type} (x : α) (w r : ℚ)
    (h0 : 0 ≤ r) (hw : r ≤ w) :
    weighted_choice [(x, w)] r = some x :=
  wchoice_single x w r hw

/-- Witness for C9 at the pair (x, 5) and the boundary draw r = 5. -/
theorem C9_witness :
    (0 : ℚ) ≤ 5 ∧ (5 : ℚ) ≤ 5 ∧
    weighted_choice [(("x" : String), (5 : ℚ))] 5 = some "x" :=
  ⟨by norm_num, le_refl 5, C9_single_pair_returns_item "x" 5 5 (by norm_num) (le_refl 5)⟩

/-! ## Walker lemmas -/

theorem walkLoop_ne_startNotFound (mark : Chain) :
    ∀ (fuel : Nat) (prev : EdgeTable) (title : List Symbol) (draws : Nat → ℚ) (i : Nat),
      walkLoop mark prev title draws i fuel ≠ .startNotFound := by
  intro fuel
  induction fuel with
  | zero =>
    intro prev title draws i h
    exact WalkResult.noConfusion h
  | succ f ih =>
    intro prev title draws i
    simp only [walkLoop]
    split
    · intro h; exact WalkResult.noConfusion h
    · split
      · intro h; exact WalkResult.noConfusion h
      · split
        · intro h; exact WalkResult.noConfusion h
        · exact ih _ _ _ _

/-- C5: for every chain, start symbol, draw sequence and fuel,
markov_randwalk reports the failed initial lookup (the StartNotFoundError
of the spec) exactly when start is not a key of the chain; when start is a
key the initial lookup succeeds and this error is never produced. -/
theorem C5_start_not_found_iff (mark : Chain) (start : Symbol) (draws : Nat → ℚ)
    (fuel : Nat) :
    markov_randwalk mark start draws fuel = .startNotFound ↔ alistFind mark start = none := by
  cases h : alistFind mark start with
  | none => simp [markov_randwalk, h]
  | some t => simp [markov_randwalk, h, walkLoop_ne_startNotFound]

/-- C6: during a walk, when the sampled successor w is neither the _end_
sentinel nor a key of the chain, the step fails with the UnknownSymbolError
of the spec rather than continuing; when w is a key of the chain the step
continues the walk and no such error is produced at that step. -/
theorem C6_unknown_symbol_step (mark : Chain) (prev : EdgeTable) (title : List Symbol)
    (draws : Nat → ℚ) (i fuel : Nat) (w : Symbol)
    (hc : weighted_choice (etPairs prev) (draws i) = some w) (hw : w ≠ "_end_") :
    (alistFind mark w = none → walkLoop mark prev title draws i (fuel + 1) = .unknownSymbol w) ∧
    (∀ t, alistFind mark w = some t →
      walkLoop mark prev title draws i (fuel + 1) =
        walkLoop mark t (title ++ [w]) draws (i + 1) fuel) := by
  constructor
  · intro hf
    simp [walkLoop, hc, hw, hf]
  · intro t hf
    simp [walkLoop, hc, hw, hf]

/-- Witness for C6: the sampled successor a of the table [(a, 1)] is not a
key of the initial chain, and the step reports it as unknown. -/
theorem C6_witness :
    weighted_choice (etPairs [("a", 1)]) ((fun _ => (0 : ℚ)) 0) = some "a" ∧
    ("a" : Symbol) ≠ "_end_" ∧
    ((alistFind initChain "a" = none →
        walkLoop initChain [("a", 1)] [] (fun _ => 0) 0 (0 + 1) = .unknownSymbol "a") ∧
     (∀ t, alistFind initChain "a" = some t →
        walkLoop initChain [("a", 1)] [] (fun _ => 0) 0 (0 + 1) =
          walkLoop initChain t ([] ++ ["a"]) (fun _ => 0) (0 + 1) 0)) :=
  ⟨by norm_num [weighted_choice, wchoiceFrom, etPairs], by decide,
   C6_unknown_symbol_step initChain [("a", 1)] [] (fun _ => 0) 0 0 "a"
     (by norm_num [weighted_choice, wchoiceFrom, etPairs]) (by decide)⟩

/-! ## Builder step lemmas -/

theorem step1_cases (mark : Chain) (prev w : Symbol) (t : EdgeTable)
    (ht : alistFind mark prev = some t) :
    (∃ n, alistFind t w = some n ∧
      step1 mark prev w = alistSet mark prev (alistSet t w (n + 1))) ∨
    (alistFind t w = none ∧
      ((alistFind (alistSet mark prev (alistSet t w 1)) w).isSome = true ∧
        step1 mark prev w = alistSet mark prev (alistSet t w 1) ∨
       (alistFind (alistSet mark prev (alistSet t w 1)) w).isSome = false ∧
        step1 mark prev w = alistSet (alistSet mark prev (alistSet t w 1)) w [])) := by
  unfold step1
  rw [ht]
  simp only [Option.getD_some]
  cases hf : alistFind t w with
  | some n => exact Or.inl ⟨n, rfl, rfl⟩
  | none =>
    refine Or.inr ⟨rfl, ?_⟩
    cases hs : (alistFind (alistSet mark prev (alistSet t w 1)) w).isSome with
    | true => exact Or.inl ⟨rfl, by simp [hs]⟩
    | false => exact Or.inr ⟨rfl, by simp [hs]⟩

theorem step1_keys (mark : Chain) (prev w x : Symbol) (t : EdgeTable)
    (ht : alistFind mark prev = some t)
    (h : (alistFind mark x).isSome = true) :
    (alistFind (step1 mark prev w) x).isSome = true := by
  rcases step1_cases mark prev w t ht with ⟨n, _, heq⟩ | ⟨_, ⟨_, heq⟩ | ⟨_, heq⟩⟩
  · rw [heq]; exact alistFind_set_isSome _ _ _ _ h
  · rw [heq]; exact alistFind_set_isSome _ _ _ _ h
  · rw [heq]; exact alistFind_set_isSome _ _ _ _ (alistFind_set_isSome _ _ _ _ h)

theorem step1_find_w (mark : Chain) (prev w : Symbol) (t : EdgeTable)
    (ht : alistFind mark prev = some t) (hI : InvB mark) (hw : w ≠ "_end_") :
    (alistFind (step1 mark prev w) w).isSome = true := by
  rcases step1_cases mark prev w t ht with ⟨n, hf, heq⟩ | ⟨_, ⟨hs, heq⟩ | ⟨_, heq⟩⟩
  · rw [heq]
    have hwn : (w, n) ∈ t := mem_of_alistFind t w n hf
    have hmark : (alistFind mark w).isSome = true :=
      (hI.2 (prev, t) (mem_of_alistFind mark prev t ht) (w, n) hwn).1 hw
    exact alistFind_set_isSome _ _ _ _ hmark
  · rw [heq]; exact hs
  · rw [heq, alistFind_set]
    simp

theorem step1_inv (mark : Chain) (prev w : Symbol) (t : EdgeTable)
    (ht : alistFind mark prev = some t) (hI : InvB mark) :
    InvB (step1 mark prev w) := by
  obtain ⟨hS, hP⟩ := hI
  have hmem_t : (prev, t) ∈ mark := mem_of_alistFind mark prev t ht
  have hkeys : ∀ x, (alistFind mark x).isSome = true →
      (alistFind (step1 mark prev w) x).isSome = true :=
    fun x hx => step1_keys mark prev w x t ht hx
  have hwkey : w ≠ "_end_" → (alistFind (step1 mark prev w) w).isSome = true :=
    fun hw => step1_find_w mark prev w t ht ⟨hS, hP⟩ hw
  rcases step1_cases mark prev w t ht with ⟨n, hf, heq⟩ | ⟨hf, ⟨hs, heq⟩ | ⟨hs, heq⟩⟩
  · constructor
    · exact hkeys _ hS
    · intro p hpmem q hq
      rw [heq] at hpmem
      rcases mem_alistSet_cases _ _ _ _ hpmem with rfl | hold
      · rcases mem_alistSet_cases _ _ _ _ hq with rfl | hqt
        · refine ⟨fun hwend => hwkey hwend, by omega⟩
        · have hc := hP (prev, t) hmem_t q hqt
          exact ⟨fun h2 => hkeys _ (hc.1 h2), hc.2⟩
      · have hc := hP p hold q hq
        exact ⟨fun h2 => hkeys _ (hc.1 h2), hc.2⟩
  · constructor
    · exact hkeys _ hS
    · intro p hpmem q hq
      rw [heq] at hpmem
      rcases mem_alistSet_cases _ _ _ _ hpmem with rfl | hold
      · rcases mem_alistSet_cases _ _ _ _ hq with rfl | hqt
        · exact ⟨fun hwend => hwkey hwend, le_refl 1⟩
        · have hc := hP (prev, t) hmem_t q hqt
          exact ⟨fun h2 => hkeys _ (hc.1 h2), hc.2⟩
      · have hc := hP p hold q hq
        exact ⟨fun h2 => hkeys _ (hc.1 h2), hc.2⟩
  · constructor
    · exact hkeys _ hS
    · intro p hpmem q hq
      rw [heq] at hpmem
      rcases mem_alistSet_cases _ _ _ _ hpmem with rfl | hm1
      · simp at hq
      · rcases mem_alistSet_cases _ _ _ _ hm1 with rfl | hold
        · rcases mem_alistSet_cases _ _ _ _ hq with rfl | hqt
          · exact ⟨fun hwend => hwkey hwend, le_refl 1⟩
          · have hc := hP (prev, t) hmem_t q hqt
            exact ⟨fun h2 => hkeys _ (hc.1 h2), hc.2⟩
        · have hc := hP p hold q hq
          exact ⟨fun h2 => hkeys _ (hc.1 h2), hc.2⟩

theorem step1_find_other (mark : Chain) (prev w x : Symbol) (t : EdgeTable)
    (ht : alistFind mark prev = some t) (hxp : prev ≠ x) (hxw : w ≠ x) :
    alistFind (step1 mark prev w) x = alistFind mark x := by
  rcases step1_cases mark prev w t ht with ⟨n, _, heq⟩ | ⟨_, ⟨_, heq⟩ | ⟨_, heq⟩⟩
  · rw [heq, alistFind_set, if_neg hxp]
  · rw [heq, alistFind_set, if_neg hxp]
  · rw [heq, alistFind_set, if_neg hxw, alistFind_set, if_neg hxp]

theorem step1_at_start (mark : Chain) (w : Symbol) (t : EdgeTable)
    (ht : alistFind mark "_start_" = some t)
    (hw1 : w ≠ "_start_") (hw2 : w ≠ "_end_") :
    ∃ t2, alistFind (step1 mark "_start_" w) "_start_" = some t2 ∧
      wsum t2 = wsum t + 1 ∧ alistFind t2 "_end_" = alistFind t "_end_" := by
  rcases step1_cases mark "_start_" w t ht with ⟨n, hf, heq⟩ | ⟨hf, ⟨_, heq⟩ | ⟨_, heq⟩⟩
  · refine ⟨alistSet t w (n + 1), ?_, wsum_set_some t w n hf, ?_⟩
    · rw [heq, alistFind_set, if_pos rfl]
    · rw [alistFind_set, if_neg hw2]
  · refine ⟨alistSet t w 1, ?_, wsum_set_none t w 1 hf, ?_⟩
    · rw [heq, alistFind_set, if_pos rfl]
    · rw [alistFind_set, if_neg hw2]
  · refine ⟨alistSet t w 1, ?_, wsum_set_none t w 1 hf, ?_⟩
    · rw [heq, alistFind_set, if_neg hw1, alistFind_set, if_pos rfl]
    · rw [alistFind_set, if_neg hw2]

theorem addEnd_cases (m : Chain) (p : Symbol) (t : EdgeTable)
    (ht : alistFind m p = some t) :
    (alistFind t "_end_" = none ∧ addEnd m p = alistSet m p (alistSet t "_end_" 1)) ∨
    (∃ n, alistFind t "_end_" = some n ∧
      addEnd m p = alistSet m p (alistSet t "_end_" (n + 1))) := by
  unfold addEnd
  rw [ht]
  simp only [Option.getD_some]
  cases hf : alistFind t "_end_" with
  | none => exact Or.inl ⟨rfl, rfl⟩
  | some n => exact Or.inr ⟨n, rfl, rfl⟩

theorem addEnd_inv (m : Chain) (p : Symbol) (t : EdgeTable)
    (ht : alistFind m p = some t) (hI : InvB m) :
    InvB (addEnd m p) := by
  obtain ⟨hS, hP⟩ := hI
  have hmem_t : (p, t) ∈ m := mem_of_alistFind m p t ht
  rcases addEnd_cases m p t ht with ⟨hf, heq⟩ | ⟨n, hf, heq⟩ <;> rw [heq] <;> constructor
  · exact alistFind_set_isSome _ _ _ _ hS
  · intro x hxmem q hq
    rcases mem_alistSet_cases _ _ _ _ hxmem with rfl | hold
    · rcases mem_alistSet_cases _ _ _ _ hq with rfl | hqt
      · exact ⟨fun h2 => absurd rfl h2, le_refl 1⟩
      · have hc := hP (p, t) hmem_t q hqt
        exact ⟨fun h2 => alistFind_set_isSome _ _ _ _ (hc.1 h2), hc.2⟩
    · have hc := hP x hold q hq
      exact ⟨fun h2 => alistFind_set_isSome _ _ _ _ (hc.1 h2), hc.2⟩
  · exact alistFind_set_isSome _ _ _ _ hS
  · intro x hxmem q hq
    rcases mem_alistSet_cases _ _ _ _ hxmem with rfl | hold
    · rcases mem_alistSet_cases _ _ _ _ hq with rfl | hqt
      · exact ⟨fun h2 => absurd rfl h2, by omega⟩
      · have hc := hP (p, t) hmem_t q hqt
        exact ⟨fun h2 => alistFind_set_isSome _ _ _ _ (hc.1 h2), hc.2⟩
    · have hc := hP x hold q hq
      exact ⟨fun h2 => alistFind_set_isSome _ _ _ _ (hc.1 h2), hc.2⟩

theorem addEnd_find_other (m : Chain) (p x : Symbol) (t : EdgeTable)
    (ht : alistFind m p = some t) (hpx : p ≠ x) :
    alistFind (addEnd m p) x = alistFind m x := by
  rcases addEnd_cases m p t ht with ⟨_, heq⟩ | ⟨n, _, heq⟩ <;>
    rw [heq, alistFind_set, if_neg hpx]

theorem addEnd_at_start (m : Chain) (t : EdgeTable)
    (ht : alistFind m "_start_" = some t) :
    ∃ t2, alistFind (addEnd m "_start_") "_start_" = some t2 ∧
      wsum t2 = wsum t + 1 ∧
      alistFind t2 "_end_" = some ((alistFind t "_end_").getD 0 + 1) := by
  rcases addEnd_cases m "_start_" t ht with ⟨hf, heq⟩ | ⟨n, hf, heq⟩
  · refine ⟨alistSet t "_end_" 1, ?_, wsum_set_none t "_end_" 1 hf, ?_⟩
    · rw [heq, alistFind_set, if_pos rfl]
    · rw [alistFind_set, if_pos rfl, hf]
      rfl
  · refine ⟨alistSet t "_end_" (n + 1), ?_, wsum_set_some t "_end_" n hf, ?_⟩
    · rw [heq, alistFind_set, if_pos rfl]
    · rw [alistFind_set, if_pos rfl, hf]
      rfl

/-! ## Word loop and title loop lemmas -/

theorem procWords_steady :
    ∀ (ws : List String) (mark : Chain) (prev : Symbol),
      InvB mark → (alistFind mark prev).isSome = true → prev ≠ "_start_" →
      (∀ w ∈ ws, w ≠ "_start_" ∧ w ≠ "_end_") →
      ∃ m2 p2, procWords mark ws prev = some (m2, p2) ∧ InvB m2 ∧
        (alistFind m2 p2).isSome = true ∧ p2 ≠ "_start_" ∧
        alistFind m2 "_start_" = alistFind mark "_start_"
  | [], mark, prev, hI, hp, hpre, _ => ⟨mark, prev, rfl, hI, hp, hpre, rfl⟩
  | w :: ws, mark, prev, hI, hp, hpre, hsent => by
    by_cases hw : w = ""
    · exact ⟨mark, prev, by simp [procWords, hw], hI, hp, hpre, rfl⟩
    · obtain ⟨hw1, hw2⟩ := hsent w (List.mem_cons_self _ _)
      obtain ⟨t, ht⟩ := Option.isSome_iff_exists.mp hp
      have hI1 : InvB (step1 mark prev w) := step1_inv mark prev w t ht hI
      have hkw : (alistFind (step1 mark prev w) w).isSome = true :=
        step1_find_w mark prev w t ht hI hw2
      obtain ⟨tw, htw⟩ := Option.isSome_iff_exists.mp hkw
      obtain ⟨m2, p2, heq, hI2, hp2, hpre2, hstart2⟩ :=
        procWords_steady ws (step1 mark prev w) w hI1 hkw hw1
          (fun x hx => hsent x (List.mem_cons_of_mem _ hx))
      refine ⟨m2, p2, ?_, hI2, hp2, hpre2, ?_⟩
      · simp only [procWords, if_neg hw, htw]
        exact heq
      · rw [hstart2]
        exact step1_find_other mark prev w "_start_" t ht hpre hw1

theorem procTitle_effect (ws : List String) (mark : Chain) (hI : InvB mark)
    (hsent : ∀ w ∈ ws, w ≠ "_start_" ∧ w ≠ "_end_") :
    ∃ m, procTitleW mark ws = some m ∧ InvB m ∧
      wsum (startTable m) = wsum (startTable mark) + 1 ∧
      (alistFind (startTable m) "_end_").getD 0 =
        (alistFind (startTable mark) "_end_").getD 0 +
          (if ws.headD "" = "" then 1 else 0) := by
  obtain ⟨t0, ht0⟩ := Option.isSome_iff_exists.mp hI.1
  have hst0 : startTable mark = t0 := by rw [startTable, ht0]; rfl
  rcases ws with _ | ⟨w, ws2⟩
  · obtain ⟨t2, ht2, hsum, hend⟩ := addEnd_at_start mark t0 ht0
    refine ⟨addEnd mark "_start_", by simp [procTitleW, procWords], addEnd_inv mark "_start_" t0 ht0 hI, ?_, ?_⟩
    · rw [hst0, startTable, ht2, Option.getD_some, hsum]
    · rw [hst0, startTable, ht2, Option.getD_some, hend]
      simp
  · by_cases hw : w = ""
    · subst hw
      obtain ⟨t2, ht2, hsum, hend⟩ := addEnd_at_start mark t0 ht0
      refine ⟨addEnd mark "_start_", by simp [procTitleW, procWords], addEnd_inv mark "_start_" t0 ht0 hI, ?_, ?_⟩
      · rw [hst0, startTable, ht2, Option.getD_some, hsum]
      · rw [hst0, startTable, ht2, Option.getD_some, hend]
        simp
    · obtain ⟨hw1, hw2⟩ := hsent w (List.mem_cons_self _ _)
      have hI1 : InvB (step1 mark "_start_" w) := step1_inv mark "_start_" w t0 ht0 hI
      have hkw : (alistFind (step1 mark "_start_" w) w).isSome = true :=
        step1_find_w mark "_start_" w t0 ht0 hI hw2
      obtain ⟨tw, htw⟩ := Option.isSome_iff_exists.mp hkw
      obtain ⟨t1, ht1, hsum1, hend1⟩ := step1_at_start mark w t0 ht0 hw1 hw2
      obtain ⟨m2, p2, heq, hI2, hp2, hpre2, hstart2⟩ :=
        procWords_steady ws2 (step1 mark "_start_" w) w hI1 hkw hw1
          (fun x hx => hsent x (List.mem_cons_of_mem _ hx))
      obtain ⟨tp, htp⟩ := Option.isSome_iff_exists.mp hp2
      have hfinal : alistFind (addEnd m2 p2) "_start_" = some t1 := by
        rw [addEnd_find_other m2 p2 "_start_" tp htp hpre2, hstart2]
        exact ht1
      refine ⟨addEnd m2 p2, ?_, addEnd_inv m2 p2 tp htp hI2, ?_, ?_⟩
      · have hpw : procWords mark (w :: ws2) "_start_" = some (m2, p2) := by
          simp only [procWords, if_neg hw, htw]
          exact heq
        simp only [procTitleW, hpw]
      · rw [hst0, startTable, hfinal, Option.getD_some, hsum1]
      · rw [hst0, startTable, hfinal, Option.getD_some, hend1, List.headD_cons, if_neg hw]
        omega

theorem calcW_effect :
    ∀ (seqss : List (List String)) (mark : Chain), InvB mark →
      (∀ ws ∈ seqss, ∀ w ∈ ws, w ≠ "_start_" ∧ w ≠ "_end_") →
      ∃ m, calcW seqss mark = some m ∧ InvB m ∧
        wsum (startTable m) = wsum (startTable mark) + seqss.length ∧
        (alistFind (startTable m) "_end_").getD 0 =
          (alistFind (startTable mark) "_end_").getD 0 +
            seqss.countP (fun ws => ws.headD "" == "")
  | [], mark, hI, _ => ⟨mark, rfl, hI, by simp, by simp [List.countP_nil]⟩
  | ws :: rest, mark, hI, hsent => by
    obtain ⟨m1, hm1, hI1, hsum1, hend1⟩ :=
      procTitle_effect ws mark hI (hsent ws (List.mem_cons_self _ _))
    obtain ⟨m, hm, hIm, hsum, hend⟩ :=
      calcW_effect rest m1 hI1 (fun x hx => hsent x (List.mem_cons_of_mem _ hx))
    refine ⟨m, ?_, hIm, ?_, ?_⟩
    · simp only [calcW, hm1]
      exact hm
    · rw [hsum, hsum1, List.length_cons]
      omega
    · rw [hend, hend1, List.countP_cons]
      have hiff : (if (ws.headD "" == "") = true then 1 else 0) =
          (if ws.headD "" = "" then 1 else 0) := by
        by_cases h : ws.headD "" = "" <;> simp [h]
      omega

theorem procWords_inv :
    ∀ (ws : List String) (mark : Chain) (prev : Symbol) (m2 : Chain) (p2 : Symbol),
      InvB mark → (alistFind mark prev).isSome = true →
      procWords mark ws prev = some (m2, p2) →
      InvB m2 ∧ (alistFind m2 p2).isSome = true
  | [], mark, prev, m2, p2, hI, hp, heq => by
    simp only [procWords, Option.some.injEq, Prod.mk.injEq] at heq
    obtain ⟨rfl, rfl⟩ := heq
    exact ⟨hI, hp⟩
  | w :: ws, mark, prev, m2, p2, hI, hp, heq => by
    by_cases hw : w = ""
    · simp only [procWords, if_pos hw, Option.some.injEq, Prod.mk.injEq] at heq
      obtain ⟨rfl, rfl⟩ := heq
      exact ⟨hI, hp⟩
    · obtain ⟨t, ht⟩ := Option.isSome_iff_exists.mp hp
      simp only [procWords, if_neg hw] at heq
      cases hf : alistFind (step1 mark prev w) w with
      | none => rw [hf] at heq; simp at heq
      | some tw =>
        rw [hf] at heq
        exact procWords_inv ws (step1 mark prev w) w m2 p2
          (step1_inv mark prev w t ht hI) (by simp [hf]) heq

theorem procTitleW_inv (ws : List String) (mark m1 : Chain) (hI : InvB mark)
    (h : procTitleW mark ws = some m1) : InvB m1 := by
  unfold procTitleW at h
  cases hq : procWords mark ws "_start_" with
  | none => rw [hq] at h; simp at h
  | some pr =>
    obtain ⟨mm, pp⟩ := pr
    rw [hq] at h
    simp only [Option.some.injEq] at h
    obtain ⟨hI2, hp2⟩ := procWords_inv ws mark "_start_" mm pp hI hI.1 hq
    obtain ⟨tp, htp⟩ := Option.isSome_iff_exists.mp hp2
    rw [← h]
    exact addEnd_inv mm pp tp htp hI2

theorem calcW_inv :
    ∀ (seqss : List (List String)) (mark m : Chain),
      InvB mark → calcW seqss mark = some m → InvB m
  | [], mark, m, hI, h => by
    simp only [calcW, Option.some.injEq] at h
    exact h ▸ hI
  | ws :: rest, mark, m, hI, h => by
    cases hp : procTitleW mark ws with
    | none => rw [calcW, hp] at h; simp at h
    | some m1 =>
      rw [calcW, hp] at h
      exact calcW_inv rest m1 m (procTitleW_inv ws mark m1 hI hp) h

/-! ## Bridging the string-level loop to the word-level loop -/

theorem calcT_map_some :
    ∀ (ts : List String) (mark : Chain),
      calcT (ts.map some) mark = calcW (ts.map splitSpace) mark
  | [], _ => rfl
  | t :: ts, mark => by
    simp only [List.map_cons, calcT, calcW]
    cases hp : procTitleW mark (splitSpace t) with
    | none => rfl
    | some m => exact calcT_map_some ts m

theorem splitSp_ne_nil : ∀ (cs acc : List Char), splitSp cs acc ≠ []
  | [], acc => by simp [splitSp]
  | c :: cs, acc => by
    by_cases h : c = ' '
    · simp [splitSp, h]
    · simpa [splitSp, h] using splitSp_ne_nil cs (c :: acc)

theorem splitSpace_ne_nil (s : String) : splitSpace s ≠ [] :=
  splitSp_ne_nil s.data []

theorem invB_initChain : InvB initChain :=
  ⟨rfl, by decide⟩

/-! ## Chain construction claims (C4, C7, C10) -/

/-- C4 fails as stated: the single sequence of the one non-empty token
_start_ yields a START table whose weights sum to 2, not 1 (the token
collides with the START sentinel); and a token _end_ that follows an
existing END edge makes the build fail with a KeyError on the lookup of
mark at _end_, so no chain results at all. -/
theorem C4_counterexample :
    (∀ s ∈ [["_start_"]], s ≠ [] ∧ ∀ w ∈ s, w ≠ "") ∧
    calculate_chain_words [["_start_"]] =
      some [("_start_", [("_start_", 1), ("_end_", 1)])] ∧
    wsum (startTable [("_start_", [("_start_", 1), ("_end_", 1)])]) ≠
      [["_start_"]].length ∧
    calculate_chain_words [["a"], ["a", "_end_"]] = none :=
  ⟨by decide, by decide, by decide, by decide⟩

/-- C4 (amended): for every finite collection of non-empty token-sequences
whose tokens are non-empty and distinct from the reserved sentinel strings
_start_ and _end_, the build succeeds and the sum of the weights in the
START edge table of the resulting chain equals the number of input
sequences. -/
theorem C4_start_weight_sum (seqs : List (List String))
    (hne : ∀ s ∈ seqs, s ≠ [] ∧ ∀ w ∈ s, w ≠ "")
    (hsent : ∀ s ∈ seqs, ∀ w ∈ s, w ≠ "_start_" ∧ w ≠ "_end_") :
    ∃ chain, calculate_chain_words seqs = some chain ∧
      wsum (startTable chain) = seqs.length := by
  obtain ⟨m, hm, _, hsum, _⟩ := calcW_effect seqs initChain invB_initChain hsent
  refine ⟨m, hm, ?_⟩
  have h0 : wsum (startTable initChain) = 0 := rfl
  omega

/-- Witness for C4 at the single sequence of the one token a. -/
theorem C4_witness :
    (∀ s ∈ [["a"]], s ≠ [] ∧ ∀ w ∈ s, w ≠ "") ∧
    (∀ s ∈ [["a"]], ∀ w ∈ s, w ≠ "_start_" ∧ w ≠ "_end_") ∧
    (∃ chain, calculate_chain_words [["a"]] = some chain ∧
      wsum (startTable chain) = [["a"]].length) :=
  ⟨by decide, by decide, C4_start_weight_sum [["a"]] (by decide) (by decide)⟩

/-- C7: for every input of token-sequences of non-empty tokens, when the
build returns a chain, _start_ is one of its keys (bound to an empty edge
table when the input is empty), every symbol appearing as an edge-table key
other than _end_ is also a key of the chain, and every edge weight is at
least 1. -/
theorem C7_invariants (seqs : List (List String)) (chain : Chain)
    (hne : ∀ s ∈ seqs, ∀ w ∈ s, w ≠ "")
    (h : calculate_chain_words seqs = some chain) :
    (alistFind chain "_start_").isSome = true ∧
    (seqs = [] → alistFind chain "_start_" = some []) ∧
    (∀ p ∈ chain, ∀ q ∈ p.2,
      (q.1 ≠ "_end_" → (alistFind chain q.1).isSome = true) ∧ 1 ≤ q.2) := by
  have hI : InvB chain := calcW_inv seqs initChain chain invB_initChain h
  refine ⟨hI.1, ?_, hI.2⟩
  rintro rfl
  have h2 : initChain = chain := by
    simpa [calculate_chain_words, calcW] using h
  rw [← h2]
  rfl

/-- Witness for C7 at the single sequence of the one token a. -/
theorem C7_witness :
    (∀ s ∈ [["a"]], ∀ w ∈ s, w ≠ "") ∧
    calculate_chain_words [["a"]] =
      some [("_start_", [("a", 1)]), ("a", [("_end_", 1)])] ∧
    ((alistFind [("_start_", [("a", 1)]), ("a", [("_end_", 1)])] "_start_").isSome = true ∧
     ([["a"]] = ([] : List (List String)) →
        alistFind [("_start_", [("a", 1)]), ("a", [("_end_", 1)])] "_start_" = some []) ∧
     (∀ p ∈ [("_start_", [("a", 1)]), ("a", [("_end_", 1)])], ∀ q ∈ p.2,
        (q.1 ≠ "_end_" →
          (alistFind [("_start_", [("a", 1)]), ("a", [("_end_", 1)])] q.1).isSome = true) ∧
        1 ≤ q.2)) :=
  ⟨by decide, by decide, C7_invariants [["a"]] _ (by decide) (by decide)⟩

/-- C10 fails as stated: in the input with the two titles given by the empty
string and the string _start_, exactly one title has the empty string as its
first space-split token, yet the built chain maps _start_ to a table whose
_end_ edge has weight 2, because the token _start_ of the second title makes
the word loop end with previous referring back to the START table; likewise
a title whose token is _end_ bumps the self-referential _end_ entry, shown
by the input with the titles _end_ and the empty string. -/
theorem C10_counterexample :
    (["", "_start_"].countP (fun t => (splitSpace t).head? == some "")) = 1 ∧
    calculate_chain (["", "_start_"].map some) =
      some [("_start_", [("_end_", 2), ("_start_", 1)])] ∧
    alistFind (startTable [("_start_", [("_end_", 2), ("_start_", 1)])]) "_end_" = some 2 ∧
    (2 : Nat) ≠ 1 ∧
    (["_end_", ""].countP (fun t => (splitSpace t).head? == some "")) = 1 ∧
    calculate_chain (["_end_", ""].map some) =
      some [("_start_", [("_end_", 2)]), ("_end_", [("_end_", 1)])] ∧
    alistFind (startTable [("_start_", [("_end_", 2)]), ("_end_", [("_end_", 1)])]) "_end_" =
      some 2 :=
  ⟨by decide, by decide, by decide, by decide, by decide, by decide, by decide⟩

/-- C10 (amended): for every input list of titles none of whose space-split
tokens equals a reserved sentinel string, in which exactly k >= 1 titles
have an empty string as their first space-split token (including the
empty-string title itself), the built chain maps _start_ to an edge table
containing an _end_ edge of weight exactly k, so a walk from _start_ can
terminate immediately and return the empty string. -/
theorem C10_start_end_weight (titles : List String) (k : Nat)
    (hsent : ∀ t ∈ titles, ∀ w ∈ splitSpace t, w ≠ "_start_" ∧ w ≠ "_end_")
    (hk : k = titles.countP (fun t => (splitSpace t).head? == some ""))
    (h1 : 1 ≤ k) :
    ∃ chain, calculate_chain (titles.map some) = some chain ∧
      alistFind (startTable chain) "_end_" = some k := by
  have hsent2 : ∀ ws ∈ titles.map splitSpace, ∀ w ∈ ws, w ≠ "_start_" ∧ w ≠ "_end_" := by
    intro ws hws w hw
    obtain ⟨t, ht, rfl⟩ := List.mem_map.mp hws
    exact hsent t ht w hw
  obtain ⟨m, hm, _, _, hend⟩ := calcW_effect (titles.map splitSpace) initChain invB_initChain hsent2
  have hcount : (titles.map splitSpace).countP (fun ws => ws.headD "" == "") =
      titles.countP (fun t => (splitSpace t).head? == some "") := by
    rw [List.countP_map]
    apply List.countP_congr
    intro t _
    cases hsp : splitSpace t with
    | nil => exact absurd hsp (splitSpace_ne_nil t)
    | cons a l => simp [Function.comp, hsp]
  have h0 : (alistFind (startTable initChain) "_end_").getD 0 = 0 := rfl
  have hend2 : (alistFind (startTable m) "_end_").getD 0 = k := by
    rw [hend, hcount, ← hk, h0]
    omega
  refine ⟨m, ?_, ?_⟩
  · rw [calculate_chain, calcT_map_some]
    exact hm
  · cases hf : alistFind (startTable m) "_end_" with
    | none =>
      rw [hf] at hend2
      simp only [Option.getD_none] at hend2
      exfalso
      omega
    | some n =>
      rw [hf] at hend2
      simp only [Option.getD_some] at hend2
      rw [hend2]

/-- Witness for C10 at the single empty title, with k = 1. -/
theorem C10_witness :
    (∀ t ∈ [""], ∀ w ∈ splitSpace t, w ≠ "_start_" ∧ w ≠ "_end_") ∧
    (1 = ([""].countP (fun t => (splitSpace t).head? == some ""))) ∧
    1 ≤ 1 ∧
    (∃ chain, calculate_chain ([""].map some) = some chain ∧
      alistFind (startTable chain) "_end_" = some 1) :=
  ⟨by decide, by decide, le_refl 1,
   C10_start_end_weight [""] 1 (by decide) (by decide) (le_refl 1)⟩

/-! ## Builder break-on-None behaviour (C1) -/

/-- C1: evaluation of calculate_chain at the failing input [None, some a]:
the source executes break at the first None entry, so the title a after it
is never processed and the returned chain is the initial chain, which
differs from the chain built from the same input with the None entry
filtered out. The spec requires None entries to be skipped with all
remaining entries still processed. -/
theorem C1_break_discards_rest :
    calculate_chain [none, some "a"] = some initChain ∧
    calculate_chain [some "a"] = some [("_start_", [("a", 1)]), ("a", [("_end_", 1)])] ∧
    calculate_chain [none, some "a"] ≠ calculate_chain [some "a"] :=
  ⟨by decide, by decide, by decide⟩

/-! ## Dedup stream (C3) -/

theorem titlesRun_spec (mark : Chain) (seed : String) (draws : Nat → Nat → ℚ)
    (wfuel : Nat → Nat) :
    ∀ (fuel : Nat) (uniq : List String) (j : Nat),
      (titlesRun mark seed draws wfuel uniq j fuel).Nodup ∧
      ∀ t ∈ titlesRun mark seed draws wfuel uniq j fuel, t ≠ seed ∧ t ∉ uniq := by
  intro fuel
  induction fuel with
  | zero => intro uniq j; simp [titlesRun]
  | succ f ih =>
    intro uniq j
    simp only [titlesRun]
    split
    · split
      · refine ⟨(ih uniq (j + 1)).1, ?_⟩
        intro x hx
        exact (ih uniq (j + 1)).2 x hx
      · rename_i t _ hcond
        push_neg at hcond
        obtain ⟨hts, htu⟩ := hcond
        have ihh := ih (t :: uniq) (j + 1)
        constructor
        · refine List.nodup_cons.mpr ⟨?_, ihh.1⟩
          intro hmem
          exact (ihh.2 t hmem).2 (List.mem_cons_self t uniq)
        · intro x hx
          rcases List.mem_cons.mp hx with rfl | hx2
          · exact ⟨hts, htu⟩
          · obtain ⟨h1, h2⟩ := ihh.2 x hx2
            exact ⟨h1, fun hxu => h2 (List.mem_cons_of_mem _ hxu)⟩
    · simp

/-! ## Deterministic one-path walk (C8) -/

theorem walkLoop_step (mark : Chain) (prev : EdgeTable) (title : List Symbol)
    (draws : Nat → ℚ) (i fuel : Nat) (w : Symbol) (t : EdgeTable)
    (hc : weighted_choice (etPairs prev) (draws i) = some w) (hw : w ≠ "_end_")
    (hf : alistFind mark w = some t) :
    walkLoop mark prev title draws i (fuel + 1) =
      walkLoop mark t (title ++ [w]) draws (i + 1) fuel := by
  simp [walkLoop, hc, hw, hf]

theorem walkLoop_stop (mark : Chain) (prev : EdgeTable) (title : List Symbol)
    (draws : Nat → ℚ) (i fuel : Nat)
    (hc : weighted_choice (etPairs prev) (draws i) = some "_end_") :
    walkLoop mark prev title draws i (fuel + 1) = .ok (String.intercalate " " title) := by
  simp [walkLoop, hc]

/-- C8: on the chain built from exactly the one training sequence of the
tokens the and godfather, every walk from _start_ with enough fuel returns
the string formed of the two words, regardless of the random draws; every
table of this chain has total weight 1, so the draws of uniform(0, total)
all lie in the closed interval from 0 to 1. -/
theorem C8_deterministic_walk (chain : Chain)
    (hc : calculate_chain_words [["the", "godfather"]] = some chain)
    (draws : Nat → ℚ) (hd : ∀ i, 0 ≤ draws i ∧ draws i ≤ 1) (n : Nat) :
    markov_randwalk chain "_start_" draws (n + 3) = .ok "the godfather" := by
  have hg : calculate_chain_words [["the", "godfather"]] =
      some [("_start_", [("the", 1)]), ("the", [("godfather", 1)]),
        ("godfather", [("_end_", 1)])] := by decide
  rw [hg] at hc
  obtain rfl := Option.some.inj hc
  have e1 : etPairs [("the", 1)] = [("the", (1 : ℚ))] := by simp [etPairs]
  have e2 : etPairs [("godfather", 1)] = [("godfather", (1 : ℚ))] := by simp [etPairs]
  have e3 : etPairs [("_end_", 1)] = [("_end_", (1 : ℚ))] := by simp [etPairs]
  have s1 : weighted_choice (etPairs [("the", 1)]) (draws 0) = some "the" := by
    rw [e1]; exact wchoice_single "the" 1 (draws 0) (hd 0).2
  have s2 : weighted_choice (etPairs [("godfather", 1)]) (draws 1) = some "godfather" := by
    rw [e2]; exact wchoice_single "godfather" 1 (draws 1) (hd 1).2
  have s3 : weighted_choice (etPairs [("_end_", 1)]) (draws 2) = some "_end_" := by
    rw [e3]; exact wchoice_single "_end_" 1 (draws 2) (hd 2).2
  have h0 : markov_randwalk
      [("_start_", [("the", 1)]), ("the", [("godfather", 1)]), ("godfather", [("_end_", 1)])]
      "_start_" draws (n + 3) =
      walkLoop
        [("_start_", [("the", 1)]), ("the", [("godfather", 1)]), ("godfather", [("_end_", 1)])]
        [("the", 1)] [] draws 0 (n + 3) := rfl
  rw [h0, show n + 3 = (n + 2) + 1 by omega,
    walkLoop_step _ [("the", 1)] [] draws 0 (n + 2) "the" [("godfather", 1)]
      s1 (by decide) (by decide),
    show n + 2 = (n + 1) + 1 by omega,
    walkLoop_step _ [("godfather", 1)] ([] ++ ["the"]) draws (0 + 1) (n + 1) "godfather"
      [("_end_", 1)] s2 (by decide) (by decide),
    walkLoop_stop _ [("_end_", 1)] (([] ++ ["the"]) ++ ["godfather"]) draws (0 + 1 + 1) n s3]
  rfl

/-- Witness for C8 with the all-zero draw sequence and minimal fuel. -/
theorem C8_witness :
    calculate_chain_words [["the", "godfather"]] =
      some [("_start_", [("the", 1)]), ("the", [("godfather", 1)]),
        ("godfather", [("_end_", 1)])] ∧
    (∀ i : Nat, 0 ≤ (fun _ : Nat => (0 : ℚ)) i ∧ (fun _ : Nat => (0 : ℚ)) i ≤ 1) ∧
    markov_randwalk
      [("_start_", [("the", 1)]), ("the", [("godfather", 1)]), ("godfather", [("_end_", 1)])]
      "_start_" (fun _ : Nat => 0) (0 + 3) = .ok "the godfather" :=
  ⟨by decide, fun _ => ⟨le_refl 0, by norm_num⟩,
   C8_deterministic_walk _ (by decide) (fun _ => 0) (fun _ => ⟨le_refl 0, by norm_num⟩) 0⟩

/-- C3: for every chain, seed, draw source and fuel, the first n strings
yielded by one run of the titles generator are pairwise distinct, and none
of them equals the seed string. -/
theorem C3_stream_unique (mark : Chain) (seed : String) (draws : Nat → Nat → ℚ)
    (wfuel : Nat → Nat) (fuel n : Nat) :
    ((titlesRun mark seed draws wfuel [] 0 fuel).take n).Nodup ∧
    seed ∉ (titlesRun mark seed draws wfuel [] 0 fuel).take n := by
  obtain ⟨hnd, hmem⟩ := titlesRun_spec mark seed draws wfuel fuel [] 0
  refine ⟨(List.take_sublist n _).nodup hnd, ?_⟩
  intro hseed
  exact (hmem seed (List.mem_of_mem_take hseed)).1 rfl

end MovieMarkov
